import Mathlib

/-!
Verification of the versioning and retrieval core of the MCP-Project
repository (domain documents, project conventions, semantic search).

The Python source is shallowly embedded as pure Lean functions over explicit
store states.  UUIDs are modelled as natural numbers drawn from a fresh-id
counter, timestamps as a natural-number clock, and floating-point similarity
scores as rationals; the sentence-transformer model itself is an opaque
parameter `encode : String → List ℚ`, and the pgvector cosine similarity is
an opaque parameter `sim : List ℚ → List ℚ → ℚ`.
-/

namespace MCP

/-! ## Stable descending insertion sort

Models both Python's stable `list.sort(key=..., reverse=True)` (used by
`SemanticSearchService.search`) and SQL `ORDER BY ... DESC` on a single
column.  `insertDescBy` places the new element before the first element whose
key is `≤` its own, so earlier elements win ties: the sort is stable. -/

def insertDescBy {α β : Type} [LinearOrder β] (key : α → β) (x : α) :
    List α → List α
  | [] => [x]
  | y :: ys => if key y ≤ key x then x :: y :: ys else y :: insertDescBy key x ys

def sortDescBy {α β : Type} [LinearOrder β] (key : α → β) : List α → List α
  | [] => []
  | x :: xs => insertDescBy key x (sortDescBy key xs)

theorem insertDescBy_perm {α β : Type} [LinearOrder β] (key : α → β) (x : α)
    (l : List α) : (insertDescBy key x l).Perm (x :: l) := by
  induction l with
  | nil => simp [insertDescBy]
  | cons y ys ih =>
    by_cases h : key y ≤ key x
    · simp [insertDescBy, h]
    · simp only [insertDescBy, if_neg h]
      exact ((ih.cons y).trans (List.Perm.swap x y ys))

theorem sortDescBy_perm {α β : Type} [LinearOrder β] (key : α → β)
    (l : List α) : (sortDescBy key l).Perm l := by
  induction l with
  | nil => simp [sortDescBy]
  | cons x xs ih =>
    exact (insertDescBy_perm key x (sortDescBy key xs)).trans (ih.cons x)

theorem length_sortDescBy {α β : Type} [LinearOrder β] (key : α → β)
    (l : List α) : (sortDescBy key l).length = l.length :=
  (sortDescBy_perm key l).length_eq

theorem mem_sortDescBy {α β : Type} [LinearOrder β] (key : α → β)
    (l : List α) (a : α) : a ∈ sortDescBy key l ↔ a ∈ l :=
  (sortDescBy_perm key l).mem_iff

theorem insertDescBy_sorted {α β : Type} [LinearOrder β] (key : α → β) (x : α)
    (l : List α) (h : l.Sorted (fun a b => key b ≤ key a)) :
    (insertDescBy key x l).Sorted (fun a b => key b ≤ key a) := by
  induction l with
  | nil => simp [insertDescBy]
  | cons y ys ih =>
    obtain ⟨hy, hys⟩ := List.sorted_cons.mp h
    by_cases hxy : key y ≤ key x
    · simp only [insertDescBy, if_pos hxy]
      refine List.sorted_cons.mpr ⟨?_, h⟩
      intro b hb
      rcases List.mem_cons.mp hb with hb | hb
      · exact hb ▸ hxy
      · exact le_trans (hy b hb) hxy
    · simp only [insertDescBy, if_neg hxy]
      refine List.sorted_cons.mpr ⟨?_, ih hys⟩
      intro b hb
      rcases List.mem_cons.mp ((insertDescBy_perm key x ys).mem_iff.mp hb)
        with hb | hb
      · exact hb ▸ le_of_lt (lt_of_not_le hxy)
      · exact hy b hb

theorem sortDescBy_sorted {α β : Type} [LinearOrder β] (key : α → β)
    (l : List α) : (sortDescBy key l).Sorted (fun a b => key b ≤ key a) := by
  induction l with
  | nil => simp [sortDescBy]
  | cons x xs ih => exact insertDescBy_sorted key x _ ih

theorem insertDescBy_of_forall_lt {α β : Type} [LinearOrder β] (key : α → β)
    (x : α) (l : List α) (h : ∀ y ∈ l, key x < key y) :
    insertDescBy key x l = l ++ [x] := by
  induction l with
  | nil => rfl
  | cons y ys ih =>
    have hy : ¬ key y ≤ key x := not_le_of_lt (h y (List.mem_cons_self y ys))
    simp only [insertDescBy, if_neg hy, List.cons_append, List.cons.injEq,
      true_and]
    exact ih (fun z hz => h z (List.mem_cons_of_mem y hz))

theorem sortDescBy_eq_reverse {α β : Type} [LinearOrder β] (key : α → β)
    (l : List α) (h : l.Pairwise (fun a b => key a < key b)) :
    sortDescBy key l = l.reverse := by
  induction l with
  | nil => rfl
  | cons x xs ih =>
    have hx : ∀ y ∈ sortDescBy key xs, key x < key y := by
      intro y hy
      exact (List.pairwise_cons.mp h).1 y ((sortDescBy_perm key xs).mem_iff.mp hy)
    simp only [sortDescBy, List.reverse_cons]
    rw [insertDescBy_of_forall_lt key x _ hx, ih (List.pairwise_cons.mp h).2]

/-- Stability of the descending sort, insertion step: the elements whose key
equals a fixed value `s` appear in the output in their input order. -/
theorem filter_insertDescBy {α β : Type} [LinearOrder β] [DecidableEq β]
    (key : α → β) (x : α) (l : List α) (s : β) :
    (insertDescBy key x l).filter (fun a => key a = s) =
      (if key x = s then x :: l.filter (fun a => key a = s)
       else l.filter (fun a => key a = s)) := by
  induction l with
  | nil => by_cases h : key x = s <;> simp [insertDescBy, h]
  | cons y ys ih =>
    by_cases hxy : key y ≤ key x
    · rw [show insertDescBy key x (y :: ys) = x :: y :: ys by
        simp [insertDescBy, hxy]]
      by_cases hx : key x = s
      · rw [if_pos hx]
        simp [List.filter_cons, hx]
      · rw [if_neg hx]
        simp [List.filter_cons, hx]
    · rw [show insertDescBy key x (y :: ys) = y :: insertDescBy key x ys by
        simp [insertDescBy, hxy]]
      have hyx : key x < key y := lt_of_not_le hxy
      rw [List.filter_cons, List.filter_cons, ih]
      by_cases hy : key y = s
      · have hx : ¬ key x = s := fun hx => (ne_of_lt hyx) (hx.trans hy.symm)
        simp [hy, hx]
      · by_cases hx : key x = s <;> simp [hy, hx]

/-- Stability of the descending sort: for every key value `s`, the
subsequence of elements with key `s` is unchanged by the sort. -/
theorem filter_sortDescBy {α β : Type} [LinearOrder β] [DecidableEq β]
    (key : α → β) (l : List α) (s : β) :
    (sortDescBy key l).filter (fun a => key a = s) =
      l.filter (fun a => key a = s) := by
  induction l with
  | nil => rfl
  | cons x xs ih =>
    simp only [sortDescBy, filter_insertDescBy, ih, List.filter_cons]
    by_cases hx : key x = s <;> simp [hx]

/-! ## Domain document aggregate model
(src/src/domain_document/domain/model/document.py) -/

structure DomainProperty where
  name : String
  description : String
  type : String
  is_required : Bool
  is_immutable : Bool
  deriving Repr, DecidableEq

structure DomainPolicy where
  category : String
  subject : Option String
  content : String
  deriving Repr, DecidableEq

structure DomainRelationship where
  target_domain : String
  relation_type : String
  description : String
  impact_description : Option String
  deriving Repr, DecidableEq

/-- The `DomainDocument` aggregate root.  UUIDs are modelled as naturals and
timestamps as clock ticks. -/
structure DomainDocument where
  identifier : Nat
  project : String
  service : String
  domain : String
  summary : String
  version : Nat
  properties : List DomainProperty
  policies : List DomainPolicy
  dependencies : List DomainRelationship
  created_at : Nat
  updated_at : Nat
  deriving Repr, DecidableEq

/-! ## Persistence rows
(src/src/domain_document/adapter/output/persistence/entity.py).  A row of the
`domain_document` table together with its child rows; `deleted_at` and
`embedding` are the nullable columns used for soft-delete and vector
search. -/

structure PropRow where
  identifier : Nat
  domain_identifier : Nat
  name : String
  description : String
  type : String
  is_required : Bool
  is_immutable : Bool
  display_order : Nat
  created_at : Nat
  updated_at : Nat
  deriving Repr, DecidableEq

structure PolicyRow where
  identifier : Nat
  domain_identifier : Nat
  category : String
  subject : Option String
  content : String
  created_at : Nat
  updated_at : Nat
  deriving Repr, DecidableEq

structure RelRow where
  identifier : Nat
  source_domain_identifier : Nat
  target_domain_identifier : Nat
  relation_type : String
  description : String
  impact_description : Option String
  deriving Repr, DecidableEq

structure DocRow where
  identifier : Nat
  project : String
  service : String
  domain : String
  summary : String
  version : Nat
  created_at : Nat
  updated_at : Nat
  deleted_at : Option Nat
  embedding : Option (List ℚ)
  properties : List PropRow
  policies : List PolicyRow
  source_relationships : List RelRow
  deriving Repr, DecidableEq

/-- The `domain_document` table plus the session's surrogate-id source
(`uuid.uuid4()` modelled as a counter) and the wall clock
(`datetime.now(timezone.utc)` modelled as a tick counter). -/
structure DocStore where
  rows : List DocRow
  nextId : Nat
  clock : Nat
  deriving Repr, DecidableEq

/-- `IntegrityError` raised by the storage layer when the unique constraint
`uq_domain_document (project, service, domain, version)` (resp.
`uq_project_convention`) is violated at commit. -/
inductive DBErr where
  | conflict
  deriving Repr, DecidableEq

/-! ## Domain document repository
(src/src/domain_document/adapter/output/persistence/repository.py) -/

/-- `to_domain`: maps an entity row to the `DomainDocument` model, resolving
each relationship's target row to build the `project:service:domain` full
name; a relationship whose target row is absent is skipped
(`if rel_entity.target_domain:`). -/
def resolveDep (rows : List DocRow) (rel : RelRow) : Option DomainRelationship :=
  match rows.find? (fun t => t.identifier == rel.target_domain_identifier) with
  | none => none
  | some t => some
      { target_domain := t.project ++ ":" ++ t.service ++ ":" ++ t.domain
        relation_type := rel.relation_type
        description := rel.description
        impact_description := rel.impact_description }

def docToDomain (rows : List DocRow) (r : DocRow) : DomainDocument :=
  { identifier := r.identifier
    project := r.project
    service := r.service
    domain := r.domain
    summary := r.summary
    version := r.version
    properties := r.properties.map (fun p =>
      { name := p.name, description := p.description, type := p.type
        is_required := p.is_required, is_immutable := p.is_immutable })
    policies := r.policies.map (fun p =>
      { category := p.category, subject := p.subject, content := p.content })
    dependencies := r.source_relationships.filterMap (resolveDep rows)
    created_at := r.created_at
    updated_at := r.updated_at }

def docMatchesKey (project service domain : String) (r : DocRow) : Bool :=
  r.project == project && r.service == service && r.domain == domain

def docActive (r : DocRow) : Bool := r.deleted_at.isNone

/-- The non-deleted rows of one logical key, in table (insertion) order. -/
def activeKeyRows (st : DocStore) (project service domain : String) :
    List DocRow :=
  st.rows.filter (fun r => docMatchesKey project service domain r && docActive r)

/-- `find_all_versions_by_logical_key`: non-deleted rows of the key, ordered
by version descending (`ORDER BY version DESC`). -/
def find_all_versions_by_logical_key (st : DocStore)
    (project service domain : String) : List DomainDocument :=
  (sortDescBy (fun r => r.version)
      (activeKeyRows st project service domain)).map (docToDomain st.rows)

/-- `find_latest_by_logical_key`: highest-version non-deleted row of the key
(`ORDER BY version DESC ... .first()`), absent when none. -/
def find_latest_by_logical_key (st : DocStore)
    (project service domain : String) : Option DomainDocument :=
  ((sortDescBy (fun r => r.version)
      (activeKeyRows st project service domain)).head?).map (docToDomain st.rows)

/-- The unique-constraint check the storage layer performs at commit: some
physical row (deleted or not) already carries this (logical key, version). -/
def docConflict (rows : List DocRow) (project service domain : String)
    (version : Nat) : Bool :=
  rows.any (fun r =>
    docMatchesKey project service domain r && r.version == version)

/-- `DocumentRepository.save`: always inserts a new parent row plus fresh
property/policy child rows (`display_order` = list index); no relationship
rows are inserted, and the new row starts non-deleted with no embedding.
Commit fails with a conflict when (logical key, version) already exists. -/
def document_save (st : DocStore) (doc : DomainDocument) :
    Except DBErr (DomainDocument × DocStore) :=
  if docConflict st.rows doc.project doc.service doc.domain doc.version then
    .error .conflict
  else
    let prop_rows := doc.properties.enum.map (fun ip =>
      { identifier := st.nextId + ip.1
        domain_identifier := doc.identifier
        name := ip.2.name, description := ip.2.description, type := ip.2.type
        is_required := ip.2.is_required, is_immutable := ip.2.is_immutable
        display_order := ip.1
        created_at := st.clock, updated_at := st.clock : PropRow })
    let policy_rows := doc.policies.enum.map (fun jp =>
      { identifier := st.nextId + doc.properties.length + jp.1
        domain_identifier := doc.identifier
        category := jp.2.category, subject := jp.2.subject
        content := jp.2.content
        created_at := st.clock, updated_at := st.clock : PolicyRow })
    let row : DocRow :=
      { identifier := doc.identifier
        project := doc.project, service := doc.service, domain := doc.domain
        summary := doc.summary, version := doc.version
        created_at := doc.created_at, updated_at := doc.updated_at
        deleted_at := none, embedding := none
        properties := prop_rows, policies := policy_rows
        source_relationships := [] }
    let st' : DocStore :=
      { rows := st.rows ++ [row]
        nextId := st.nextId + doc.properties.length + doc.policies.length
        clock := st.clock + 1 }
    .ok (docToDomain st'.rows row, st')

/-- `soft_delete_all_versions_by_logical_key`: one update statement setting
`deleted_at = now` on every currently-non-deleted row of the key; returns the
affected row count. -/
def soft_delete_all_versions_by_logical_key (st : DocStore)
    (project service domain : String) : Nat × DocStore :=
  ((activeKeyRows st project service domain).length,
   { st with
     rows := st.rows.map (fun r =>
       if docMatchesKey project service domain r && docActive r then
         { r with deleted_at := some st.clock }
       else r)
     clock := st.clock + 1 })

/-- `update_embedding`: raw-SQL update of the vector column (and
`updated_at`) of the row with the given identifier. -/
def update_embedding (rows : List DocRow) (document_id : Nat)
    (embedding : List ℚ) (now : Nat) : List DocRow :=
  rows.map (fun r =>
    if r.identifier == document_id then
      { r with embedding := some embedding, updated_at := now }
    else r)

/-- The similarity `1 - (embedding <=> query)` a row's stored vector scores
against the query vector; pgvector's cosine distance is the opaque parameter
`sim` (rows reaching this always have a stored vector). -/
def rowSim (sim : List ℚ → List ℚ → ℚ) (query_embedding : List ℚ)
    (e : Option (List ℚ)) : ℚ :=
  match e with
  | some v => sim query_embedding v
  | none => 0

/-- `DocumentRepository.semantic_search`: the raw SQL keeps non-deleted rows
with a stored vector whose similarity strictly exceeds the threshold, orders
by similarity descending (distance ascending) and applies `LIMIT top_k`; each
hit is then re-fetched by identifier and mapped to the domain model, paired
with the similarity computed in SQL. -/
def document_semantic_search (sim : List ℚ → List ℚ → ℚ) (st : DocStore)
    (query_embedding : List ℚ) (top_k : Nat) (similarity_threshold : ℚ) :
    List (DomainDocument × ℚ) :=
  let hits := st.rows.filter (fun r =>
    docActive r && r.embedding.isSome &&
      decide (similarity_threshold < rowSim sim query_embedding r.embedding))
  let ordered :=
    (sortDescBy (fun r => rowSim sim query_embedding r.embedding) hits).take
      top_k
  ordered.filterMap (fun r =>
    match st.rows.find? (fun t => t.identifier == r.identifier) with
    | some t => some (docToDomain st.rows t,
        rowSim sim query_embedding r.embedding)
    | none => none)

/-! ## Domain document service
(src/src/domain_document/application/service/document_service.py) -/

/-- `DocumentService.create_or_update_document`: look up the latest version
of the logical key (absent → 1, else latest + 1), build a new aggregate with
a fresh identifier, persist it via `save`, then best-effort index the
embedding.  `emb` is the outcome of
`embedding_service.create_embedding_for_document`: `some v` when embedding
generation produced vector `v`, `none` when it raised — the exception is
logged and swallowed, so the saved document is returned either way. -/
def create_or_update_document (st : DocStore)
    (project service domain summary : String)
    (properties : List DomainProperty) (policies : List DomainPolicy)
    (emb : Option (List ℚ)) : Except DBErr (DomainDocument × DocStore) :=
  let latest_version := find_latest_by_logical_key st project service domain
  let new_version_number :=
    match latest_version with
    | none => 1
    | some latest => latest.version + 1
  let new_document : DomainDocument :=
    { identifier := st.nextId
      project := project, service := service, domain := domain
      summary := summary, version := new_version_number
      properties := properties, policies := policies
      dependencies := []
      created_at := st.clock, updated_at := st.clock }
  match document_save { st with nextId := st.nextId + 1 } new_document with
  | .error e => .error e
  | .ok (saved_document, st1) =>
    match emb with
    | none => .ok (saved_document, st1)
    | some v => .ok (saved_document,
        { st1 with
          rows := update_embedding st1.rows saved_document.identifier v
            st1.clock
          clock := st1.clock + 1 })

/-! ## Project convention aggregate model
(src/src/project_convention/domain/model/convention.py) -/

structure ProjectConvention where
  identifier : Nat
  project : String
  category : String
  title : String
  version : Nat
  content : String
  example_correct : Option String
  example_incorrect : Option String
  created_at : Nat
  updated_at : Nat
  deriving Repr, DecidableEq

/-- A row of the `project_convention` table.  The columns through
`updated_at` mirror `ProjectConventionEntity`
(src/src/project_convention/adapter/output/persistence/entity.py).
Modelled from the spec: the `deleted_at` and `embedding` columns — every
`ConventionRepository` query filters or updates `deleted_at` and the raw SQL
of `update_embedding`/`semantic_search` reads and writes `embedding`, and the
spec's persisted layout gives each primary table a nullable vector column and
a nullable `deleted_at` column, but `ProjectConventionEntity` itself declares
neither column and the repository ships no migration DDL. -/
structure ConvRow where
  identifier : Nat
  project : String
  category : String
  title : String
  version : Nat
  content : String
  example_correct : Option String
  example_incorrect : Option String
  created_at : Nat
  updated_at : Nat
  deleted_at : Option Nat
  embedding : Option (List ℚ)
  deriving Repr, DecidableEq

/-- The `project_convention` table plus id counter and clock. -/
structure ConvStore where
  rows : List ConvRow
  nextId : Nat
  clock : Nat
  deriving Repr, DecidableEq

/-! ## Project convention repository
(src/src/project_convention/adapter/output/persistence/repository.py) -/

/-- `to_domain` for conventions (`ProjectConvention.model_validate`). -/
def convToDomain (r : ConvRow) : ProjectConvention :=
  { identifier := r.identifier
    project := r.project, category := r.category, title := r.title
    version := r.version, content := r.content
    example_correct := r.example_correct
    example_incorrect := r.example_incorrect
    created_at := r.created_at, updated_at := r.updated_at }

def convActive (r : ConvRow) : Bool := r.deleted_at.isNone

/-- `update_embedding` for conventions (raw SQL on the vector column; the
ORM-level convention queries that reference the entity's missing
`deleted_at` attribute raise `AttributeError` in the source and are
therefore not modelled as working operations). -/
def conv_update_embedding (rows : List ConvRow) (convention_id : Nat)
    (embedding : List ℚ) (now : Nat) : List ConvRow :=
  rows.map (fun r =>
    if r.identifier == convention_id then
      { r with embedding := some embedding, updated_at := now }
    else r)

/-- `ConventionRepository.semantic_search`: same raw SQL as the document
family; each hit is re-fetched with `session.get` by primary key. -/
def convention_semantic_search (sim : List ℚ → List ℚ → ℚ) (st : ConvStore)
    (query_embedding : List ℚ) (top_k : Nat) (similarity_threshold : ℚ) :
    List (ProjectConvention × ℚ) :=
  let hits := st.rows.filter (fun r =>
    convActive r && r.embedding.isSome &&
      decide (similarity_threshold < rowSim sim query_embedding r.embedding))
  let ordered :=
    (sortDescBy (fun r => rowSim sim query_embedding r.embedding) hits).take
      top_k
  ordered.filterMap (fun r =>
    match st.rows.find? (fun t => t.identifier == r.identifier) with
    | some t => some (convToDomain t, rowSim sim query_embedding r.embedding)
    | none => none)

/-! ## Embedding generator
(src/src/semantic_search/adapter/output/embedding/sentence_transformer_adapter.py).
The sentence-transformers model is the opaque parameter `encode`; its lazy
loading is not modelled. -/

/-- `ValueError("Text cannot be empty")` — the spec's `InvalidInputError`. -/
inductive InvalidInputError where
  | invalidInput
  deriving Repr, DecidableEq

/-- Python's `str.strip()`: the text with leading and trailing whitespace
removed. -/
def pyStrip (s : String) : String :=
  ⟨((s.data.dropWhile Char.isWhitespace).reverse.dropWhile
      Char.isWhitespace).reverse⟩

/-- `SentenceTransformerAdapter.generate_embedding`: rejects empty or
whitespace-only text (`if not text or not text.strip()`), otherwise encodes
it. -/
def generate_embedding (encode : String → List ℚ) (text : String) :
    Except InvalidInputError (List ℚ) :=
  if text = "" ∨ pyStrip text = "" then .error .invalidInput
  else .ok (encode text)

/-! ## Embedding service text projections
(src/src/semantic_search/application/service/embedding_service.py) -/

/-- `EmbeddingService._create_document_text`. -/
def create_document_text (doc : DomainDocument) : String :=
  let parts := ["도메인: " ++ doc.domain, "프로젝트: " ++ doc.project,
                "서비스: " ++ doc.service, "요약: " ++ doc.summary]
  let parts := if doc.properties.isEmpty then parts else
    parts ++ ["속성: " ++ String.intercalate ", " (doc.properties.map (fun p =>
      p.name ++ "(" ++ p.type ++ "): " ++ p.description))]
  let parts := if doc.policies.isEmpty then parts else
    parts ++ ["정책: " ++ String.intercalate ", " (doc.policies.map (fun p =>
      p.category ++ " - " ++ p.content))]
  String.intercalate " | " parts

/-- `EmbeddingService._create_convention_text` (a `None` or empty example is
falsy in Python, so it is left out). -/
def create_convention_text (conv : ProjectConvention) : String :=
  let parts := ["컨벤션: " ++ conv.title, "분류: " ++ conv.category,
                "내용: " ++ conv.content]
  let parts :=
    match conv.example_correct with
    | some e => if e == "" then parts else parts ++ ["올바른 예시: " ++ e]
    | none => parts
  let parts :=
    match conv.example_incorrect with
    | some e => if e == "" then parts else parts ++ ["잘못된 예시: " ++ e]
    | none => parts
  String.intercalate " | " parts

/-! ## Semantic search service
(src/src/semantic_search/application/service/semantic_search_service.py and
src/src/semantic_search/domain/model/search_result.py) -/

inductive MatchContent where
  | document (d : DomainDocument)
  | convention (c : ProjectConvention)
  deriving Repr, DecidableEq

structure DocumentMatch where
  document_type : String
  document_id : Nat
  similarity : ℚ
  content : MatchContent
  deriving Repr, DecidableEq

structure SearchResult where
  query : String
  «matches» : List DocumentMatch
  total_count : Nat
  deriving Repr, DecidableEq

/-- The merged, pre-sort match list of `SemanticSearchService.search`:
domain-document results first, then convention results, each tagged with its
family. -/
def merged_matches (sim : List ℚ → List ℚ → ℚ) (dst : DocStore)
    (cst : ConvStore) (query_embedding : List ℚ) (top_k : Nat)
    (similarity_threshold : ℚ) : List DocumentMatch :=
  (document_semantic_search sim dst query_embedding top_k
      similarity_threshold).map (fun ds =>
    { document_type := "DOMAIN_DOCUMENT", document_id := ds.1.identifier
      similarity := ds.2, content := .document ds.1 })
  ++ (convention_semantic_search sim cst query_embedding top_k
      similarity_threshold).map (fun cs =>
    { document_type := "PROJECT_CONVENTION", document_id := cs.1.identifier
      similarity := cs.2, content := .convention cs.1 })

/-- `SemanticSearchService.search`: embed the query, search both tables with
the caller's `top_k` and threshold, merge, stable-sort by similarity
descending (`matches.sort(key=..., reverse=True)`), truncate to `top_k`, and
return the query, the truncated list and its length. -/
def search (encode : String → List ℚ) (sim : List ℚ → List ℚ → ℚ)
    (dst : DocStore) (cst : ConvStore) (query : String) (top_k : Nat)
    (similarity_threshold : ℚ) : Except InvalidInputError SearchResult :=
  match generate_embedding encode query with
  | .error e => .error e
  | .ok query_embedding =>
    let ms := sortDescBy (fun m => m.similarity)
      (merged_matches sim dst cst query_embedding top_k similarity_threshold)
    let ms := ms.take top_k
    .ok { query := query, «matches» := ms, total_count := ms.length }

/-! ## Helper lemmas about the store operations -/

/-- A row transformation that preserves a predicate and a projection
pointwise preserves the projection of the filtered list. -/
theorem filter_map_proj {α β : Type} (l : List α) (g : α → α) (p : α → Bool)
    (f : α → β) (hp : ∀ a, p (g a) = p a) (hf : ∀ a, f (g a) = f a) :
    ((l.map g).filter p).map f = (l.filter p).map f := by
  induction l with
  | nil => rfl
  | cons a as ih =>
    simp only [List.map_cons, List.filter_cons, hp a]
    by_cases h : p a = true
    · simp [h, hf a, ih]
    · simp [h, ih]

theorem map_proj_congr {α β : Type} (l : List α) (g : α → α) (f : α → β)
    (hf : ∀ a, f (g a) = f a) : (l.map g).map f = l.map f := by
  induction l with
  | nil => rfl
  | cons a as ih => simp [hf a, ih]

theorem update_embedding_rels (rows : List DocRow) (document_id : Nat)
    (embedding : List ℚ) (now : Nat) :
    (update_embedding rows document_id embedding now).map
        (fun r => r.source_relationships)
      = rows.map (fun r => r.source_relationships) := by
  refine map_proj_congr rows _ _ (fun a => ?_)
  by_cases h : (a.identifier == document_id) = true <;> simp [h]

/-- `update_embedding` touches only the vector and `updated_at` columns: the
key columns, version and `deleted_at` of every row are untouched, so the
per-key projection to versions is unchanged. -/
theorem update_embedding_filter_version (rows : List DocRow)
    (document_id : Nat) (embedding : List ℚ) (now : Nat)
    (project service domain : String) :
    ((update_embedding rows document_id embedding now).filter
        (docMatchesKey project service domain)).map (fun r => r.version)
      = (rows.filter (docMatchesKey project service domain)).map
          (fun r => r.version) := by
  refine filter_map_proj rows _ _ _ (fun a => ?_) (fun a => ?_) <;>
    by_cases h : (a.identifier == document_id) = true <;>
    simp [h, docMatchesKey]

theorem update_embedding_filter_deleted (rows : List DocRow)
    (document_id : Nat) (embedding : List ℚ) (now : Nat)
    (project service domain : String) :
    ((update_embedding rows document_id embedding now).filter
        (docMatchesKey project service domain)).map (fun r => r.deleted_at)
      = (rows.filter (docMatchesKey project service domain)).map
          (fun r => r.deleted_at) := by
  refine filter_map_proj rows _ _ _ (fun a => ?_) (fun a => ?_) <;>
    by_cases h : (a.identifier == document_id) = true <;>
    simp [h, docMatchesKey]

theorem update_embedding_ids (rows : List DocRow) (document_id : Nat)
    (embedding : List ℚ) (now : Nat) :
    (update_embedding rows document_id embedding now).map (fun r => r.identifier)
      = rows.map (fun r => r.identifier) := by
  refine map_proj_congr rows _ _ (fun a => ?_)
  by_cases h : (a.identifier == document_id) = true <;> simp [h]

/-! ## C4: top-K enforcement -/

/-- C4: for every query, every `top_k` and every state, a successful search
returns at most `top_k` matches (per-family lookups are limited to `top_k`
and the merged, sorted list is truncated to `top_k`), and `total_count` is
the length of the truncated list. -/
theorem search_top_k_enforcement (encode : String → List ℚ)
    (sim : List ℚ → List ℚ → ℚ) (dst : DocStore) (cst : ConvStore)
    (query : String) (top_k : Nat) (similarity_threshold : ℚ)
    (r : SearchResult)
    (h : search encode sim dst cst query top_k similarity_threshold = .ok r) :
    r.«matches».length ≤ top_k ∧ r.total_count = r.«matches».length
    ∧ ∀ qe, (document_semantic_search sim dst qe top_k
          similarity_threshold).length ≤ top_k
        ∧ (convention_semantic_search sim cst qe top_k
            similarity_threshold).length ≤ top_k := by
  have hfam : ∀ qe, (document_semantic_search sim dst qe top_k
        similarity_threshold).length ≤ top_k
      ∧ (convention_semantic_search sim cst qe top_k
          similarity_threshold).length ≤ top_k := by
    intro qe
    constructor
    · show (List.filterMap _ ((sortDescBy _ _).take top_k)).length ≤ top_k
      refine le_trans (List.length_filterMap_le _ _) ?_
      simp only [List.length_take]
      exact min_le_left top_k _
    · show (List.filterMap _ ((sortDescBy _ _).take top_k)).length ≤ top_k
      refine le_trans (List.length_filterMap_le _ _) ?_
      simp only [List.length_take]
      exact min_le_left top_k _
  unfold search at h
  cases hg : generate_embedding encode query with
  | error e => rw [hg] at h; exact absurd h (by simp)
  | ok qe =>
    rw [hg] at h
    simp only [Except.ok.injEq] at h
    subst h
    refine ⟨?_, rfl, hfam⟩
    simp only [List.length_take]
    exact min_le_left top_k _

/-- C4 witness: a concrete search over empty stores with `top_k = 3`. -/
theorem search_top_k_enforcement_witness :
    ({ query := "q", «matches» := [], total_count := 0 } :
        SearchResult).«matches».length ≤ 3
    ∧ ({ query := "q", «matches» := [], total_count := 0 } :
        SearchResult).total_count =
      ({ query := "q", «matches» := [], total_count := 0 } :
        SearchResult).«matches».length
    ∧ ∀ qe, (document_semantic_search (fun _ _ => 1) ⟨[], 0, 0⟩ qe 3
          (3/10)).length ≤ 3
        ∧ (convention_semantic_search (fun _ _ => 1) ⟨[], 0, 0⟩ qe 3
            (3/10)).length ≤ 3 :=
  search_top_k_enforcement (fun _ => [1]) (fun _ _ => 1) ⟨[], 0, 0⟩ ⟨[], 0, 0⟩
    "q" 3 (3/10) _ rfl

/-! ## C7: empty input rejection -/

/-- C7: the embedding generator fails with `InvalidInputError` on every
empty or whitespace-only text and otherwise returns the model's fixed-length
vector; a search with the empty query fails the same way for every store
(the error is raised before either per-family retrieval is consulted). -/
theorem embedding_rejects_blank_input (encode : String → List ℚ) (d : Nat)
    (sim : List ℚ → List ℚ → ℚ) (dst : DocStore) (cst : ConvStore)
    (text : String) (top_k : Nat) (similarity_threshold : ℚ)
    (hdim : ∀ t, (encode t).length = d) :
    (text = "" ∨ pyStrip text = "" →
      generate_embedding encode text = .error .invalidInput)
    ∧ (¬(text = "" ∨ pyStrip text = "") →
      generate_embedding encode text = .ok (encode text)
        ∧ (encode text).length = d)
    ∧ search encode sim dst cst "" top_k similarity_threshold
        = .error .invalidInput := by
  refine ⟨?_, ?_, ?_⟩
  · intro h
    simp [generate_embedding, h]
  · intro h
    exact ⟨by simp [generate_embedding, h], hdim text⟩
  · simp [search, generate_embedding]

/-- C7 witness: a whitespace-only text and the empty query, with a concrete
one-dimensional model. -/
theorem embedding_rejects_blank_input_witness :
    ((" " : String) = "" ∨ pyStrip " " = "" →
      generate_embedding (fun _ => [1]) " " = .error .invalidInput)
    ∧ (¬((" " : String) = "" ∨ pyStrip " " = "") →
      generate_embedding (fun _ => [1]) " " = .ok ((fun _ => [(1 : ℚ)]) " ")
        ∧ ((fun _ => [(1 : ℚ)]) " ").length = 1)
    ∧ search (fun _ => [1]) (fun _ _ => 1) ⟨[], 0, 0⟩ ⟨[], 0, 0⟩ "" 5 (3/10)
        = .error .invalidInput :=
  embedding_rejects_blank_input (fun _ => [1]) 1 (fun _ _ => 1) ⟨[], 0, 0⟩
    ⟨[], 0, 0⟩ " " 5 (3/10) (fun _ => rfl)

/-! ## C9: canonical text projection -/

/-- C9: the indexer's text projection concatenates the fields in the fixed
order — documents: domain, project, service, summary, each property rendered
`name(type): description` in list order, each policy `category - content`;
conventions: title, category, content, then the examples only when present —
joined with the fixed separator `" | "` (the property and policy renderings
are themselves joined with `", "` inside their part). -/
theorem canonical_text_projection (doc : DomainDocument)
    (conv conv0 : ProjectConvention) (ec ei : String)
    (hp : doc.properties ≠ []) (hq : doc.policies ≠ [])
    (hec : conv.example_correct = some ec) (hec' : ec ≠ "")
    (hei : conv.example_incorrect = some ei) (hei' : ei ≠ "")
    (hc0 : conv0.example_correct = none)
    (hc0' : conv0.example_incorrect = none) :
    create_document_text doc = String.intercalate " | "
      ["도메인: " ++ doc.domain, "프로젝트: " ++ doc.project,
       "서비스: " ++ doc.service, "요약: " ++ doc.summary,
       "속성: " ++ String.intercalate ", " (doc.properties.map (fun p =>
         p.name ++ "(" ++ p.type ++ "): " ++ p.description)),
       "정책: " ++ String.intercalate ", " (doc.policies.map (fun p =>
         p.category ++ " - " ++ p.content))]
    ∧ create_convention_text conv = String.intercalate " | "
      ["컨벤션: " ++ conv.title, "분류: " ++ conv.category,
       "내용: " ++ conv.content, "올바른 예시: " ++ ec, "잘못된 예시: " ++ ei]
    ∧ create_convention_text conv0 = String.intercalate " | "
      ["컨벤션: " ++ conv0.title, "분류: " ++ conv0.category,
       "내용: " ++ conv0.content] := by
  refine ⟨?_, ?_, ?_⟩
  · have hp' : doc.properties.isEmpty = false := by
      simpa [List.isEmpty_iff] using hp
    have hq' : doc.policies.isEmpty = false := by
      simpa [List.isEmpty_iff] using hq
    simp [create_document_text, hp', hq']
  · have hec'' : (ec == "") = false := beq_eq_false_iff_ne.mpr hec'
    have hei'' : (ei == "") = false := beq_eq_false_iff_ne.mpr hei'
    simp [create_convention_text, hec, hei, hec'', hei'']
  · simp [create_convention_text, hc0, hc0']

/-- C9 witness: the spec's concrete scenario document and a convention with
and without examples, evaluated to their literal projections. -/
theorem canonical_text_projection_witness :
    create_document_text
      { identifier := 7, project := "Ttutta", service := "Auth"
        domain := "User", summary := "user accounts", version := 1
        properties := [{ name := "email", description := "user email"
                         type := "String", is_required := true
                         is_immutable := false }]
        policies := [{ category := "PERMISSION", subject := some "ADMIN"
                       content := "admin only" }]
        dependencies := [], created_at := 0, updated_at := 0 }
      = "도메인: User | 프로젝트: Ttutta | 서비스: Auth | 요약: user accounts"
        ++ " | 속성: email(String): user email"
        ++ " | 정책: PERMISSION - admin only"
    ∧ create_convention_text
      { identifier := 8, project := "Ttutta", category := "NAMING"
        title := "Service names", version := 1, content := "use PascalCase"
        example_correct := some "UserService"
        example_incorrect := some "user_service"
        created_at := 0, updated_at := 0 }
      = "컨벤션: Service names | 분류: NAMING | 내용: use PascalCase"
        ++ " | 올바른 예시: UserService | 잘못된 예시: user_service"
    ∧ create_convention_text
      { identifier := 9, project := "Ttutta", category := "NAMING"
        title := "Service names", version := 1, content := "use PascalCase"
        example_correct := none, example_incorrect := none
        created_at := 0, updated_at := 0 }
      = "컨벤션: Service names | 분류: NAMING | 내용: use PascalCase" := by
  have h := canonical_text_projection
    { identifier := 7, project := "Ttutta", service := "Auth"
      domain := "User", summary := "user accounts", version := 1
      properties := [{ name := "email", description := "user email"
                       type := "String", is_required := true
                       is_immutable := false }]
      policies := [{ category := "PERMISSION", subject := some "ADMIN"
                     content := "admin only" }]
      dependencies := [], created_at := 0, updated_at := 0 }
    { identifier := 8, project := "Ttutta", category := "NAMING"
      title := "Service names", version := 1, content := "use PascalCase"
      example_correct := some "UserService"
      example_incorrect := some "user_service"
      created_at := 0, updated_at := 0 }
    { identifier := 9, project := "Ttutta", category := "NAMING"
      title := "Service names", version := 1, content := "use PascalCase"
      example_correct := none, example_incorrect := none
      created_at := 0, updated_at := 0 }
    "UserService" "user_service" (by decide) (by decide) rfl (by decide)
    rfl (by decide) rfl rfl
  refine ⟨?_, ?_, ?_⟩
  · rw [h.1]
    rfl
  · rw [h.2.1]
    rfl
  · rw [h.2.2]
    rfl

/-! ## C10: no relationship rows are written -/

/-- C10: every document returned by `create_or_update_document` has an empty
`dependencies` list, and the write appends exactly one parent row carrying no
relationship rows — relationships attached to earlier versions are never
carried forward (the map of each row to its relationship rows gains only an
empty entry). -/
theorem create_document_carries_no_relationships (st : DocStore)
    (project service domain summary : String)
    (props : List DomainProperty) (pols : List DomainPolicy)
    (emb : Option (List ℚ)) (doc : DomainDocument) (st' : DocStore)
    (h : create_or_update_document st project service domain summary props
      pols emb = .ok (doc, st')) :
    doc.dependencies = []
    ∧ st'.rows.map (fun r => r.source_relationships)
        = st.rows.map (fun r => r.source_relationships) ++ [[]] := by
  unfold create_or_update_document document_save at h
  simp only at h
  split at h
  · exact absurd h (by simp)
  · rename_i x saved st1 heq
    split at heq
    · exact absurd heq (by simp)
    · simp only [Except.ok.injEq, Prod.mk.injEq] at heq
      obtain ⟨hsaved, hst1⟩ := heq
      cases emb with
      | none =>
        simp only [Except.ok.injEq, Prod.mk.injEq] at h
        obtain ⟨hdoc, hst⟩ := h
        subst hdoc
        subst hst
        subst hsaved
        subst hst1
        refine ⟨by simp [docToDomain], by simp⟩
      | some v =>
        simp only [Except.ok.injEq, Prod.mk.injEq] at h
        obtain ⟨hdoc, hst⟩ := h
        subst hdoc
        subst hsaved
        subst hst1
        subst hst
        refine ⟨by simp [docToDomain], ?_⟩
        simp only [update_embedding_rels]
        simp

/-- A relationship row attached to the first version (for the C10
witness). -/
def relRowW : RelRow :=
  { identifier := 9, source_domain_identifier := 0,
    target_domain_identifier := 0, relation_type := "DEPENDENCY",
    description := "d", impact_description := none }

/-- First version of a key, carrying a relationship row (for the C10
witness). -/
def docRow0W : DocRow :=
  { identifier := 0, project := "P", service := "S", domain := "D",
    summary := "s0", version := 1, created_at := 0, updated_at := 0,
    deleted_at := none, embedding := none, properties := [], policies := [],
    source_relationships := [relRowW] }

/-- The row the second write inserts (for the C10 witness). -/
def docRow1W : DocRow :=
  { identifier := 1, project := "P", service := "S", domain := "D",
    summary := "s1", version := 2, created_at := 1, updated_at := 1,
    deleted_at := none, embedding := none, properties := [], policies := [],
    source_relationships := [] }

/-- C10 witness: a second write to a key whose first version carries a
relationship row still yields an empty dependency list and appends a
relationship-free row. -/
theorem create_document_carries_no_relationships_witness :
    (docToDomain ([docRow0W] ++ [docRow1W]) docRow1W).dependencies = []
    ∧ ([docRow0W] ++ [docRow1W]).map (fun r => r.source_relationships)
        = [docRow0W].map (fun r => r.source_relationships) ++ [[]] :=
  create_document_carries_no_relationships
    { rows := [docRow0W], nextId := 1, clock := 1 } "P" "S" "D" "s1" [] []
    none (docToDomain ([docRow0W] ++ [docRow1W]) docRow1W)
    { rows := [docRow0W] ++ [docRow1W], nextId := 2, clock := 2 } rfl

/-! ## C8: indexing failure never fails or rolls back the write
(domain family; the convention family's `create_or_update_convention`
crashes in the source at `find_latest_by_logical_key` — the entity declares
no `deleted_at` attribute — before `save` or the indexing step can run, so
no working convention write path exists to verify) -/

/-- C8, domain family: the outcome of the embedding/indexing step is
irrelevant to what `create_or_update_document` returns — an indexing
failure (`emb = none`, i.e. `create_embedding_for_document` raised) is
swallowed: the call returns exactly the aggregate that `save` committed,
and the persisted version row is present and untouched (appended once,
non-deleted, with the saved content). -/
theorem indexing_failure_swallowed_domain (st : DocStore)
    (project service domain summary : String)
    (props : List DomainProperty) (pols : List DomainPolicy)
    (vd : List ℚ) :
    ((create_or_update_document st project service domain summary props pols
        none).map Prod.fst
      = (create_or_update_document st project service domain summary props
          pols (some vd)).map Prod.fst)
    ∧ (∀ doc st', create_or_update_document st project service domain summary
        props pols none = .ok (doc, st') →
        ∃ row, st'.rows = st.rows ++ [row] ∧ docToDomain st'.rows row = doc
          ∧ row.version = doc.version ∧ row.deleted_at = none) := by
  constructor
  · unfold create_or_update_document
    simp only
    split <;> rfl
  · intro doc st' h
    unfold create_or_update_document document_save at h
    simp only at h
    split at h
    · exact absurd h (by simp)
    · rename_i x saved st1 heq
      split at heq
      · exact absurd heq (by simp)
      · simp only [Except.ok.injEq, Prod.mk.injEq] at heq h
        obtain ⟨hsaved, hst1⟩ := heq
        obtain ⟨hdoc, hst⟩ := h
        subst hdoc
        subst hst
        subst hsaved
        subst hst1
        exact ⟨_, rfl, rfl, rfl, rfl⟩

/-! ## The write algorithm, in equational form

`create_or_update_document` is a chain of `let`s; for the versioning proofs
we restate it as one equation over named pieces (proved by `rfl`, so the
pieces are definitionally the source function's intermediate values). -/

/-- All physical rows (deleted included) of one logical key, in table
order. -/
def keyRows (st : DocStore) (project service domain : String) : List DocRow :=
  st.rows.filter (docMatchesKey project service domain)

/-- The version number `create_or_update_document` computes: 1 when the key
has no latest non-deleted version, else latest + 1. -/
def newVersionOf (st : DocStore) (project service domain : String) : Nat :=
  match find_latest_by_logical_key st project service domain with
  | none => 1
  | some latest => latest.version + 1

/-- The parent row `save` inserts for a `create_or_update_document` call. -/
def savedRowOf (st : DocStore) (project service domain summary : String)
    (props : List DomainProperty) (pols : List DomainPolicy) : DocRow :=
  { identifier := st.nextId
    project := project, service := service, domain := domain
    summary := summary, version := newVersionOf st project service domain
    created_at := st.clock, updated_at := st.clock
    deleted_at := none, embedding := none
    properties := props.enum.map (fun ip =>
      { identifier := st.nextId + 1 + ip.1
        domain_identifier := st.nextId
        name := ip.2.name, description := ip.2.description, type := ip.2.type
        is_required := ip.2.is_required, is_immutable := ip.2.is_immutable
        display_order := ip.1
        created_at := st.clock, updated_at := st.clock })
    policies := pols.enum.map (fun jp =>
      { identifier := st.nextId + 1 + props.length + jp.1
        domain_identifier := st.nextId
        category := jp.2.category, subject := jp.2.subject
        content := jp.2.content
        created_at := st.clock, updated_at := st.clock })
    source_relationships := [] }

theorem create_or_update_document_eq (st : DocStore)
    (project service domain summary : String) (props : List DomainProperty)
    (pols : List DomainPolicy) (emb : Option (List ℚ)) :
    create_or_update_document st project service domain summary props pols emb
      = if docConflict st.rows project service domain
            (newVersionOf st project service domain) = true then
          .error .conflict
        else
          match emb with
          | none => .ok
              (docToDomain
                (st.rows ++ [savedRowOf st project service domain summary props pols])
                (savedRowOf st project service domain summary props pols),
               { rows := st.rows ++ [savedRowOf st project service domain summary props pols]
                 nextId := st.nextId + 1 + props.length + pols.length
                 clock := st.clock + 1 })
          | some v => .ok
              (docToDomain
                (st.rows ++ [savedRowOf st project service domain summary props pols])
                (savedRowOf st project service domain summary props pols),
               { rows := update_embedding
                   (st.rows ++ [savedRowOf st project service domain summary props pols])
                   st.nextId v (st.clock + 1)
                 nextId := st.nextId + 1 + props.length + pols.length
                 clock := st.clock + 2 }) := by
  have hnv : newVersionOf st project service domain
      = match find_latest_by_logical_key st project service domain with
        | none => 1
        | some latest => latest.version + 1 := rfl
  unfold create_or_update_document document_save savedRowOf
  simp only
  rw [← hnv]
  by_cases h : docConflict st.rows project service domain
      (newVersionOf st project service domain) = true <;>
    cases emb <;> simp [h, docToDomain]

theorem activeKeyRows_eq_keyRows (st : DocStore)
    (project service domain : String)
    (h : ∀ r ∈ keyRows st project service domain, docActive r = true) :
    activeKeyRows st project service domain
      = keyRows st project service domain := by
  unfold activeKeyRows keyRows
  refine List.filter_congr ?_
  intro r hr
  by_cases hm : docMatchesKey project service domain r = true
  · rw [hm, Bool.true_and]
    exact h r (List.mem_filter.mpr ⟨hr, hm⟩)
  · have hm' : docMatchesKey project service domain r = false :=
      Bool.eq_false_iff.mpr hm
    simp [hm']

theorem keyRows_length_of_dense (st : DocStore)
    (project service domain : String) (n : Nat)
    (hv : (keyRows st project service domain).map (fun r => r.version)
      = List.range' 1 n) :
    (keyRows st project service domain).length = n := by
  have := congrArg List.length hv
  simpa using this

/-- Under dense ascending versions `1..n` of an all-active key, the write
algorithm computes the new version `n + 1`. -/
theorem newVersionOf_of_dense (st : DocStore)
    (project service domain : String) (n : Nat)
    (hv : (keyRows st project service domain).map (fun r => r.version)
      = List.range' 1 n)
    (hact : ∀ r ∈ keyRows st project service domain, docActive r = true) :
    newVersionOf st project service domain = n + 1 := by
  have hpw : (keyRows st project service domain).Pairwise
      (fun a b => a.version < b.version) := by
    have h0 : List.Pairwise (fun a b => a < b) (List.range' 1 n) :=
      List.pairwise_lt_range' 1 n
    rw [← hv] at h0
    exact List.pairwise_map.mp h0
  have hsort : sortDescBy (fun r => r.version)
      (activeKeyRows st project service domain)
      = (keyRows st project service domain).reverse := by
    rw [activeKeyRows_eq_keyRows st project service domain hact]
    exact sortDescBy_eq_reverse _ _ hpw
  unfold newVersionOf find_latest_by_logical_key
  rw [hsort]
  cases n with
  | zero =>
    have hnil : keyRows st project service domain = [] :=
      List.length_eq_zero.mp (keyRows_length_of_dense st _ _ _ 0 hv)
    rw [hnil]
    rfl
  | succ m =>
    have hmap : Option.map (fun r => r.version)
        (keyRows st project service domain).reverse.head? = some (m + 1) := by
      rw [← List.head?_map, List.map_reverse, hv, List.range'_concat,
        List.reverse_append]
      simp [Nat.add_comm]
    obtain ⟨r0, hr0, hv0⟩ := Option.map_eq_some'.mp hmap
    rw [hr0]
    show (docToDomain st.rows r0).version + 1 = m + 1 + 1
    have : (docToDomain st.rows r0).version = r0.version := rfl
    rw [this, hv0]

/-- Under dense versions `1..n`, the freshly computed version `n + 1` does
not collide with any stored row: the unique constraint is satisfied. -/
theorem docConflict_false_of_dense (st : DocStore)
    (project service domain : String) (n : Nat)
    (hv : (keyRows st project service domain).map (fun r => r.version)
      = List.range' 1 n) :
    docConflict st.rows project service domain (n + 1) = false := by
  unfold docConflict
  rw [List.any_eq_false]
  intro r hr hcontra
  rw [Bool.and_eq_true] at hcontra
  obtain ⟨hm, hver⟩ := hcontra
  have hrk : r ∈ keyRows st project service domain :=
    List.mem_filter.mpr ⟨hr, hm⟩
  have hmem : r.version ∈ List.range' 1 n := by
    rw [← hv]
    exact List.mem_map_of_mem _ hrk
  have hlt := (List.mem_range'_1.mp hmem).2
  have heq : r.version = n + 1 := beq_iff_eq.mp hver
  omega

theorem keyRows_append_saved (st : DocStore)
    (project service domain summary : String) (props : List DomainProperty)
    (pols : List DomainPolicy) :
    (st.rows ++ [savedRowOf st project service domain summary props
        pols]).filter (docMatchesKey project service domain)
      = keyRows st project service domain
        ++ [savedRowOf st project service domain summary props pols] := by
  rw [List.filter_append]
  unfold keyRows
  congr 1
  simp [docMatchesKey, savedRowOf]

theorem savedRow_not_matches (st : DocStore)
    (project service domain summary : String) (props : List DomainProperty)
    (pols : List DomainPolicy) (p2 s2 d2 : String)
    (hne : ¬(p2 = project ∧ s2 = service ∧ d2 = domain)) :
    docMatchesKey p2 s2 d2 (savedRowOf st project service domain summary
      props pols) = false := by
  rw [Bool.eq_false_iff]
  intro hb
  unfold docMatchesKey savedRowOf at hb
  simp only [Bool.and_eq_true, beq_iff_eq] at hb
  exact hne ⟨hb.1.1.symm, hb.1.2.symm, hb.2.symm⟩

theorem all_active_of_deleted_map_eq (l1 l2 : List DocRow)
    (hmap : l1.map (fun r => r.deleted_at) = l2.map (fun r => r.deleted_at))
    (h2 : ∀ r ∈ l2, docActive r = true) : ∀ r ∈ l1, docActive r = true := by
  intro r hr
  have hmem : r.deleted_at ∈ l2.map (fun r => r.deleted_at) := by
    rw [← hmap]
    exact List.mem_map_of_mem _ hr
  rw [List.mem_map] at hmem
  obtain ⟨r2, hr2, he⟩ := hmem
  have hr2a := h2 r2 hr2
  unfold docActive at hr2a ⊢
  rw [← he]
  exact hr2a

/-- Central success lemma: on a key whose stored versions are the dense
ascending sequence `1..n` and all non-deleted, `create_or_update_document`
succeeds, returns version `n + 1` with the fresh identifier `st.nextId`,
extends the key's versions to `1..n+1` (still all non-deleted), appends
exactly one parent row, advances the id counter, and leaves every other
key's versions and deletion statuses unchanged. -/
theorem create_or_update_document_ok (st : DocStore)
    (project service domain summary : String) (props : List DomainProperty)
    (pols : List DomainPolicy) (emb : Option (List ℚ)) (n : Nat)
    (hv : (keyRows st project service domain).map (fun r => r.version)
      = List.range' 1 n)
    (hact : ∀ r ∈ keyRows st project service domain, docActive r = true) :
    ∃ doc st',
      create_or_update_document st project service domain summary props pols
          emb = .ok (doc, st')
      ∧ doc.version = n + 1
      ∧ doc.identifier = st.nextId
      ∧ (keyRows st' project service domain).map (fun r => r.version)
          = List.range' 1 (n + 1)
      ∧ (∀ r ∈ keyRows st' project service domain, docActive r = true)
      ∧ st'.rows.map (fun r => r.identifier)
          = st.rows.map (fun r => r.identifier) ++ [st.nextId]
      ∧ st.nextId < st'.nextId
      ∧ (∀ p2 s2 d2, ¬(p2 = project ∧ s2 = service ∧ d2 = domain) →
          (keyRows st' p2 s2 d2).map (fun r => r.version)
              = (keyRows st p2 s2 d2).map (fun r => r.version)
            ∧ (keyRows st' p2 s2 d2).map (fun r => r.deleted_at)
              = (keyRows st p2 s2 d2).map (fun r => r.deleted_at)) := by
  have hnv := newVersionOf_of_dense st project service domain n hv hact
  have hcf : docConflict st.rows project service domain
      (newVersionOf st project service domain) = false := by
    rw [hnv]
    exact docConflict_false_of_dense st project service domain n hv
  have hrowv : (savedRowOf st project service domain summary props
      pols).version = n + 1 := hnv
  have hkey' : ∀ rows2, rows2 = st.rows
        ++ [savedRowOf st project service domain summary props pols] →
      (rows2.filter (docMatchesKey project service domain)).map
          (fun r => r.version) = List.range' 1 (n + 1)
        ∧ ∀ r ∈ rows2.filter (docMatchesKey project service domain),
            docActive r = true := by
    intro rows2 h2
    subst h2
    rw [keyRows_append_saved]
    constructor
    · rw [List.map_append, hv, List.range'_concat]
      simp [hrowv, Nat.add_comm]
    · intro r hr
      rcases List.mem_append.mp hr with hr | hr
      · exact hact r hr
      · rw [List.mem_singleton.mp hr]
        rfl
  have hother : ∀ p2 s2 d2, ¬(p2 = project ∧ s2 = service ∧ d2 = domain) →
      (st.rows ++ [savedRowOf st project service domain summary props
          pols]).filter (docMatchesKey p2 s2 d2)
        = keyRows st p2 s2 d2 := by
    intro p2 s2 d2 hne
    rw [List.filter_append]
    unfold keyRows
    simp [savedRow_not_matches st project service domain summary props pols
      p2 s2 d2 hne]
  cases emb with
  | none =>
    refine ⟨docToDomain
        (st.rows ++ [savedRowOf st project service domain summary props pols])
        (savedRowOf st project service domain summary props pols),
      { rows := st.rows
          ++ [savedRowOf st project service domain summary props pols]
        nextId := st.nextId + 1 + props.length + pols.length
        clock := st.clock + 1 }, ?_, ?_, ?_, ?_, ?_, ?_, ?_, ?_⟩
    · rw [create_or_update_document_eq, hcf]
      simp
    · exact hrowv
    · rfl
    · exact (hkey' _ rfl).1
    · exact (hkey' _ rfl).2
    · simp [savedRowOf]
    · show st.nextId < st.nextId + 1 + props.length + pols.length
      omega
    · intro p2 s2 d2 hne
      show ((st.rows ++ [_]).filter (docMatchesKey p2 s2 d2)).map _ = _
        ∧ ((st.rows ++ [_]).filter (docMatchesKey p2 s2 d2)).map _ = _
      rw [hother p2 s2 d2 hne]
      exact ⟨rfl, rfl⟩
  | some v =>
    refine ⟨docToDomain
        (st.rows ++ [savedRowOf st project service domain summary props pols])
        (savedRowOf st project service domain summary props pols),
      { rows := update_embedding
          (st.rows ++ [savedRowOf st project service domain summary props pols])
          st.nextId v (st.clock + 1)
        nextId := st.nextId + 1 + props.length + pols.length
        clock := st.clock + 2 }, ?_, ?_, ?_, ?_, ?_, ?_, ?_, ?_⟩
    · rw [create_or_update_document_eq, hcf]
      simp
    · exact hrowv
    · rfl
    · show ((update_embedding _ _ _ _).filter
          (docMatchesKey project service domain)).map (fun r => r.version) = _
      rw [update_embedding_filter_version]
      exact (hkey' _ rfl).1
    · refine all_active_of_deleted_map_eq _
        ((st.rows ++ [savedRowOf st project service domain summary props
          pols]).filter (docMatchesKey project service domain)) ?_
        (hkey' _ rfl).2
      exact update_embedding_filter_deleted _ _ _ _ _ _ _
    · show (update_embedding _ _ _ _).map (fun r => r.identifier) = _
      rw [update_embedding_ids]
      simp [savedRowOf]
    · show st.nextId < st.nextId + 1 + props.length + pols.length
      omega
    · intro p2 s2 d2 hne
      constructor
      · show ((update_embedding _ _ _ _).filter
            (docMatchesKey p2 s2 d2)).map (fun r => r.version) = _
        rw [update_embedding_filter_version, hother p2 s2 d2 hne]
      · show ((update_embedding _ _ _ _).filter
            (docMatchesKey p2 s2 d2)).map (fun r => r.deleted_at) = _
        rw [update_embedding_filter_deleted, hother p2 s2 d2 hne]

/-- Central conflict lemma: on a key whose rows all exist but are all
soft-deleted (versions `1..n`, `n > 0`), the write algorithm computes
version 1 again, the unique constraint rejects the insert, and
`create_or_update_document` fails with a conflict. -/
theorem create_or_update_document_conflict (st : DocStore)
    (project service domain summary : String) (props : List DomainProperty)
    (pols : List DomainPolicy) (emb : Option (List ℚ)) (n : Nat)
    (hn : 0 < n)
    (hv : (keyRows st project service domain).map (fun r => r.version)
      = List.range' 1 n)
    (hdel : ∀ r ∈ keyRows st project service domain, docActive r = false) :
    create_or_update_document st project service domain summary props pols emb
      = .error .conflict := by
  have hakr : activeKeyRows st project service domain = [] := by
    unfold activeKeyRows
    rw [List.filter_eq_nil_iff]
    intro r hr hcontra
    rw [Bool.and_eq_true] at hcontra
    obtain ⟨hm, hac⟩ := hcontra
    have := hdel r (List.mem_filter.mpr ⟨hr, hm⟩)
    rw [this] at hac
    exact absurd hac (by simp)
  have hnv : newVersionOf st project service domain = 1 := by
    unfold newVersionOf find_latest_by_logical_key
    rw [hakr]
    rfl
  have hc : docConflict st.rows project service domain
      (newVersionOf st project service domain) = true := by
    rw [hnv]
    have h1 : (1 : Nat) ∈ List.range' 1 n :=
      List.mem_range'_1.mpr ⟨le_refl 1, by omega⟩
    rw [← hv] at h1
    rw [List.mem_map] at h1
    obtain ⟨r, hr, hrv⟩ := h1
    unfold docConflict
    rw [List.any_eq_true]
    refine ⟨r, (List.mem_filter.mp hr).1, ?_⟩
    rw [Bool.and_eq_true]
    exact ⟨(List.mem_filter.mp hr).2, by simp [hrv]⟩
  rw [create_or_update_document_eq, hc]
  simp

theorem map_if_id {α : Type} (l : List α) (p : α → Bool) (f : α → α)
    (h : ∀ a ∈ l, p a = false) :
    l.map (fun a => if p a then f a else a) = l := by
  induction l with
  | nil => rfl
  | cons a as ih =>
    rw [List.map_cons, h a (List.mem_cons_self a as),
      ih (fun b hb => h b (List.mem_cons_of_mem a hb))]
    simp

/-! ## C3 (domain family): soft delete marks all versions, idempotently -/

/-- C3, domain family: `soft_delete_all_versions_by_logical_key` returns the
number of currently-non-deleted rows of the key and leaves no non-deleted
row of the key behind; afterwards `find_latest_by_logical_key` is absent, a
second call returns 0 and does not change the rows; a key with no active
rows (including one that never existed) yields count 0 by the same count
formula. -/
theorem soft_delete_document_spec (st : DocStore)
    (project service domain : String) :
    (soft_delete_all_versions_by_logical_key st project service domain).1
        = (activeKeyRows st project service domain).length
    ∧ activeKeyRows
        (soft_delete_all_versions_by_logical_key st project service domain).2
        project service domain = []
    ∧ find_latest_by_logical_key
        (soft_delete_all_versions_by_logical_key st project service domain).2
        project service domain = none
    ∧ (soft_delete_all_versions_by_logical_key
        (soft_delete_all_versions_by_logical_key st project service domain).2
        project service domain).1 = 0
    ∧ (soft_delete_all_versions_by_logical_key
        (soft_delete_all_versions_by_logical_key st project service domain).2
        project service domain).2.rows
      = (soft_delete_all_versions_by_logical_key st project service
          domain).2.rows := by
  have h2 : activeKeyRows
      (soft_delete_all_versions_by_logical_key st project service domain).2
      project service domain = [] := by
    unfold soft_delete_all_versions_by_logical_key activeKeyRows
    simp only
    rw [List.filter_eq_nil_iff]
    intro a ha
    rw [List.mem_map] at ha
    obtain ⟨r, hr, hra⟩ := ha
    subst hra
    by_cases hc : (docMatchesKey project service domain r && docActive r)
        = true
    · rw [if_pos hc]
      simp [docActive]
    · rw [if_neg hc]
      exact fun hcc => hc hcc
  have hall : ∀ r ∈ (soft_delete_all_versions_by_logical_key st project
        service domain).2.rows,
      (docMatchesKey project service domain r && docActive r) = false := by
    have h2' := h2
    unfold activeKeyRows at h2'
    rw [List.filter_eq_nil_iff] at h2'
    intro r hr
    exact Bool.eq_false_iff.mpr (h2' r hr)
  refine ⟨rfl, h2, ?_, ?_, ?_⟩
  · unfold find_latest_by_logical_key
    rw [h2]
    rfl
  · show (activeKeyRows
        (soft_delete_all_versions_by_logical_key st project service domain).2
        project service domain).length = 0
    rw [h2]
    rfl
  · exact map_if_id _ _ _ hall

/-! ## C1 (domain family): N successive creates yield versions 1..N -/

/-- N successive `create_or_update_document` calls to one logical key; the
n-th call takes payload `sm n`, `props n`, `pols n` and indexing outcome
`embs n`.  A failed call commits nothing. -/
def iterate_creates (project service domain : String) (sm : Nat → String)
    (props : Nat → List DomainProperty) (pols : Nat → List DomainPolicy)
    (embs : Nat → Option (List ℚ)) (st : DocStore) : Nat → DocStore
  | 0 => st
  | n + 1 =>
    match create_or_update_document
        (iterate_creates project service domain sm props pols embs st n)
        project service domain (sm n) (props n) (pols n) (embs n) with
    | .ok (_, st') => st'
    | .error _ => iterate_creates project service domain sm props pols embs st n

theorem iterate_creates_inv (project service domain : String)
    (sm : Nat → String) (props : Nat → List DomainProperty)
    (pols : Nat → List DomainPolicy) (embs : Nat → Option (List ℚ))
    (st0 : DocStore)
    (hkey : keyRows st0 project service domain = [])
    (hid : ∀ r ∈ st0.rows, r.identifier < st0.nextId) : ∀ n,
    (keyRows (iterate_creates project service domain sm props pols embs st0 n)
        project service domain).map (fun r => r.version) = List.range' 1 n
    ∧ (∀ r ∈ keyRows
        (iterate_creates project service domain sm props pols embs st0 n)
        project service domain, docActive r = true)
    ∧ (∀ r ∈ (iterate_creates project service domain sm props pols embs st0
        n).rows, r.identifier
        < (iterate_creates project service domain sm props pols embs st0
            n).nextId) := by
  intro n
  induction n with
  | zero =>
    simp only [iterate_creates]
    refine ⟨?_, ?_, hid⟩
    · rw [hkey]
      rfl
    · rw [hkey]
      intro r hr
      exact absurd hr (List.not_mem_nil r)
  | succ n ih =>
    obtain ⟨hv, hact, hids⟩ := ih
    obtain ⟨doc, st', hok, hver, hident, hv', hact', hidmap, hltid, hother⟩ :=
      create_or_update_document_ok _ project service domain (sm n) (props n)
        (pols n) (embs n) n hv hact
    have hiter : iterate_creates project service domain sm props pols embs st0
        (n + 1) = st' := by
      show (match create_or_update_document
          (iterate_creates project service domain sm props pols embs st0 n)
          project service domain (sm n) (props n) (pols n) (embs n) with
        | .ok (_, st') => st'
        | .error _ =>
            iterate_creates project service domain sm props pols embs st0 n)
        = st'
      rw [hok]
    rw [hiter]
    refine ⟨hv', hact', ?_⟩
    intro r hr
    have hmem : r.identifier ∈ st'.rows.map (fun r => r.identifier) :=
      List.mem_map_of_mem _ hr
    rw [hidmap] at hmem
    rcases List.mem_append.mp hmem with hmem | hmem
    · rw [List.mem_map] at hmem
      obtain ⟨r0, hr0, he⟩ := hmem
      have := hids r0 hr0
      omega
    · rw [List.mem_singleton] at hmem
      omega

theorem keyRows_pairwise_of_dense (st : DocStore)
    (project service domain : String) (n : Nat)
    (hv : (keyRows st project service domain).map (fun r => r.version)
      = List.range' 1 n) :
    (keyRows st project service domain).Pairwise
      (fun a b => a.version < b.version) := by
  have h0 : List.Pairwise (fun a b => a < b) (List.range' 1 n) :=
    List.pairwise_lt_range' 1 n
  rw [← hv] at h0
  exact List.pairwise_map.mp h0

/-- C1, domain family: starting from a store holding no row of the logical
key, the (n+1)-st of N successive `create_or_update_document` calls
succeeds, returns version n+1, and carries an identifier that no row of its
pre-call store has (fresh); after all N calls,
`find_all_versions_by_logical_key` returns entries whose version sequence is
exactly N, N-1, ..., 1 — N non-deleted entries ordered by version
descending. -/
theorem document_successive_creates (project service domain : String)
    (sm : Nat → String) (props : Nat → List DomainProperty)
    (pols : Nat → List DomainPolicy) (embs : Nat → Option (List ℚ))
    (st0 : DocStore) (N : Nat)
    (hkey : keyRows st0 project service domain = [])
    (hid : ∀ r ∈ st0.rows, r.identifier < st0.nextId) :
    (∀ n, n < N → ∃ doc st',
        create_or_update_document
          (iterate_creates project service domain sm props pols embs st0 n)
          project service domain (sm n) (props n) (pols n) (embs n)
          = .ok (doc, st')
        ∧ doc.version = n + 1
        ∧ iterate_creates project service domain sm props pols embs st0 (n + 1)
            = st'
        ∧ ∀ r ∈ (iterate_creates project service domain sm props pols embs st0
            n).rows, r.identifier ≠ doc.identifier)
    ∧ (find_all_versions_by_logical_key
          (iterate_creates project service domain sm props pols embs st0 N)
          project service domain).map (fun d => d.version)
        = (List.range' 1 N).reverse := by
  constructor
  · intro n hn
    obtain ⟨hv, hact, hids⟩ :=
      iterate_creates_inv project service domain sm props pols embs st0 hkey
        hid n
    obtain ⟨doc, st', hok, hver, hident, _, _, _, _, _⟩ :=
      create_or_update_document_ok _ project service domain (sm n) (props n)
        (pols n) (embs n) n hv hact
    refine ⟨doc, st', hok, hver, ?_, ?_⟩
    · show (match create_or_update_document
          (iterate_creates project service domain sm props pols embs st0 n)
          project service domain (sm n) (props n) (pols n) (embs n) with
        | .ok (_, st') => st'
        | .error _ =>
            iterate_creates project service domain sm props pols embs st0 n)
        = st'
      rw [hok]
    · intro r hr he
      rw [hident] at he
      have := hids r hr
      omega
  · obtain ⟨hv, hact, _⟩ :=
      iterate_creates_inv project service domain sm props pols embs st0 hkey
        hid N
    unfold find_all_versions_by_logical_key
    rw [activeKeyRows_eq_keyRows _ _ _ _ hact,
      sortDescBy_eq_reverse _ _ (keyRows_pairwise_of_dense _ _ _ _ _ hv),
      List.map_map]
    show (keyRows (iterate_creates project service domain sm props pols embs
        st0 N) project service domain).reverse.map (fun r => r.version) = _
    rw [List.map_reverse, hv]

/-- C1 witness: two successive creates of a fresh key from the empty
store. -/
theorem document_successive_creates_witness :
    (∀ n, n < 2 → ∃ doc st',
        create_or_update_document
          (iterate_creates "P" "S" "D" (fun _ => "s") (fun _ => [])
            (fun _ => []) (fun _ => none) ⟨[], 0, 0⟩ n)
          "P" "S" "D" ((fun _ => "s") n) ((fun _ => ([] : List DomainProperty)) n)
          ((fun _ => ([] : List DomainPolicy)) n)
          ((fun _ => (none : Option (List ℚ))) n)
          = .ok (doc, st')
        ∧ doc.version = n + 1
        ∧ iterate_creates "P" "S" "D" (fun _ => "s") (fun _ => [])
            (fun _ => []) (fun _ => none) ⟨[], 0, 0⟩ (n + 1) = st'
        ∧ ∀ r ∈ (iterate_creates "P" "S" "D" (fun _ => "s") (fun _ => [])
            (fun _ => []) (fun _ => none) ⟨[], 0, 0⟩ n).rows,
            r.identifier ≠ doc.identifier)
    ∧ (find_all_versions_by_logical_key
          (iterate_creates "P" "S" "D" (fun _ => "s") (fun _ => [])
            (fun _ => []) (fun _ => none) ⟨[], 0, 0⟩ 2) "P" "S" "D").map
          (fun d => d.version)
        = (List.range' 1 2).reverse :=
  document_successive_creates "P" "S" "D" (fun _ => "s") (fun _ => [])
    (fun _ => []) (fun _ => none) ⟨[], 0, 0⟩ 2 rfl
    (fun r hr => absurd hr (List.not_mem_nil r))

/-! ## C2: reachable-state version invariant -/

theorem soft_delete_keyRows_version (st : DocStore)
    (project service domain p2 s2 d2 : String) :
    (keyRows (soft_delete_all_versions_by_logical_key st project service
        domain).2 p2 s2 d2).map (fun r => r.version)
      = (keyRows st p2 s2 d2).map (fun r => r.version) := by
  show ((st.rows.map _).filter (docMatchesKey p2 s2 d2)).map _ = _
  refine filter_map_proj st.rows _ _ _ (fun a => ?_) (fun a => ?_)
  · by_cases h : (docMatchesKey project service domain a && docActive a)
        = true
    · rw [if_pos h]
      rfl
    · rw [if_neg h]
  · by_cases h : (docMatchesKey project service domain a && docActive a)
        = true
    · rw [if_pos h]
    · rw [if_neg h]

/-- After a soft delete of a key, every stored row of that key (old or just
marked) is deleted. -/
theorem soft_delete_keyRows_deleted_of_same (st : DocStore)
    (project service domain : String) :
    ∀ r ∈ keyRows (soft_delete_all_versions_by_logical_key st project service
        domain).2 project service domain, docActive r = false := by
  intro r hr
  unfold keyRows soft_delete_all_versions_by_logical_key at hr
  simp only at hr
  rw [List.mem_filter] at hr
  obtain ⟨hmem, hmatch⟩ := hr
  rw [List.mem_map] at hmem
  obtain ⟨r0, hr0, he⟩ := hmem
  by_cases hc : (docMatchesKey project service domain r0 && docActive r0)
      = true
  · rw [if_pos hc] at he
    rw [← he]
    rfl
  · rw [if_neg hc] at he
    subst he
    rcases Bool.and_eq_false_iff.mp (Bool.eq_false_iff.mpr hc) with h | h
    · rw [h] at hmatch
      exact absurd hmatch (by simp)
    · exact h

/-- A soft delete of one key leaves the rows of every other key untouched. -/
theorem soft_delete_keyRows_other (st : DocStore)
    (project service domain p2 s2 d2 : String)
    (hne : ¬(p2 = project ∧ s2 = service ∧ d2 = domain)) :
    keyRows (soft_delete_all_versions_by_logical_key st project service
        domain).2 p2 s2 d2
      = keyRows st p2 s2 d2 := by
  show (st.rows.map _).filter (docMatchesKey p2 s2 d2)
      = st.rows.filter (docMatchesKey p2 s2 d2)
  induction st.rows with
  | nil => rfl
  | cons r rs ih =>
    rw [List.map_cons, List.filter_cons, List.filter_cons]
    by_cases h2 : docMatchesKey p2 s2 d2 r = true
    · have hK : (docMatchesKey project service domain r && docActive r)
          = false := by
        by_cases hKm : docMatchesKey project service domain r = true
        · exfalso
          unfold docMatchesKey at h2 hKm
          simp only [Bool.and_eq_true, beq_iff_eq] at h2 hKm
          exact hne ⟨h2.1.1.symm.trans hKm.1.1, h2.1.2.symm.trans hKm.1.2,
            h2.2.symm.trans hKm.2⟩
        · have hKm' : docMatchesKey project service domain r = false :=
            Bool.eq_false_iff.mpr hKm
          simp [hKm']
      simp only [hK]
      simp only [Bool.false_eq_true, if_false]
      rw [h2]
      simp only [if_true]
      rw [ih]
    · have h2' : docMatchesKey p2 s2 d2 r = false := Bool.eq_false_iff.mpr h2
      have hg2 : docMatchesKey p2 s2 d2
          (if docMatchesKey project service domain r && docActive r then
            { r with deleted_at := some st.clock } else r) = false := by
        by_cases hc : (docMatchesKey project service domain r && docActive r)
            = true
        · rw [if_pos hc]
          unfold docMatchesKey at h2' ⊢
          simpa using h2'
        · rw [if_neg hc]
          exact h2'
      rw [hg2, h2']
      simp only [Bool.false_eq_true, if_false]
      exact ih

theorem all_status_of_deleted_map_eq (b : Bool) (l1 l2 : List DocRow)
    (hmap : l1.map (fun r => r.deleted_at) = l2.map (fun r => r.deleted_at))
    (h2 : ∀ r ∈ l2, docActive r = b) : ∀ r ∈ l1, docActive r = b := by
  intro r hr
  have hmem : r.deleted_at ∈ l2.map (fun r => r.deleted_at) := by
    rw [← hmap]
    exact List.mem_map_of_mem _ hr
  rw [List.mem_map] at hmem
  obtain ⟨r2, hr2, he⟩ := hmem
  have hr2a := h2 r2 hr2
  unfold docActive at hr2a ⊢
  rw [← he]
  exact hr2a

/-- One service-level mutation of the domain-document store: a successful
`create_or_update_document`, a soft delete, or a re-indexing embedding
update (the batch script path).  Reads mutate nothing and a conflicting
write commits nothing. -/
inductive DocStep : DocStore → DocStore → Prop where
  | create (st : DocStore) (project service domain summary : String)
      (props : List DomainProperty) (pols : List DomainPolicy)
      (emb : Option (List ℚ)) (doc : DomainDocument) (st' : DocStore) :
      create_or_update_document st project service domain summary props pols
        emb = .ok (doc, st') →
      DocStep st st'
  | soft_delete (st : DocStore) (project service domain : String) :
      DocStep st
        (soft_delete_all_versions_by_logical_key st project service domain).2
  | reindex (st : DocStore) (document_id : Nat) (v : List ℚ) :
      DocStep st
        { st with
          rows := update_embedding st.rows document_id v st.clock,
          clock := st.clock + 1 }

/-- The states the service layer can reach from an empty table. -/
inductive DocReachable : DocStore → Prop where
  | init : DocReachable { rows := [], nextId := 0, clock := 0 }
  | step {st st' : DocStore} :
      DocReachable st → DocStep st st' → DocReachable st'

/-- Per logical key: the stored versions (deleted rows included) are exactly
the dense ascending sequence `1..n`, and the key's rows are either all
non-deleted or all soft-deleted. -/
def DocInv (st : DocStore) : Prop :=
  ∀ project service domain, ∃ n,
    (keyRows st project service domain).map (fun r => r.version)
        = List.range' 1 n
    ∧ ((∀ r ∈ keyRows st project service domain, docActive r = true)
       ∨ (∀ r ∈ keyRows st project service domain, docActive r = false))

theorem docInv_of_reachable (st : DocStore) (h : DocReachable st) :
    DocInv st := by
  induction h with
  | init =>
    intro project service domain
    refine ⟨0, rfl, .inl ?_⟩
    intro r hr
    exact absurd hr (List.not_mem_nil r)
  | step hreach hstep ih =>
    rename_i st stB
    cases hstep with
    | create project service domain summary props pols emb doc st' hok =>
      intro p2 s2 d2
      obtain ⟨n, hv, hdisj⟩ := ih project service domain
      have hactive : ∀ r ∈ keyRows st project service domain,
          docActive r = true := by
        rcases hdisj with h | h
        · exact h
        · cases n with
          | zero =>
            have hnil : keyRows st project service domain = [] :=
              List.length_eq_zero.mp
                (keyRows_length_of_dense st project service domain 0 hv)
            rw [hnil]
            intro r hr
            exact absurd hr (List.not_mem_nil r)
          | succ m =>
            have hconf := create_or_update_document_conflict st project
              service domain summary props pols emb (m + 1) (Nat.succ_pos m)
              hv h
            rw [hok] at hconf
            exact absurd hconf (by simp)
      obtain ⟨doc0, st0, hok0, hver0, _, hv', hact', _, _, hother⟩ :=
        create_or_update_document_ok st project service domain summary props
          pols emb n hv hactive
      rw [hok] at hok0
      simp only [Except.ok.injEq, Prod.mk.injEq] at hok0
      obtain ⟨hdoc0, hst0⟩ := hok0
      subst hdoc0
      subst hst0
      by_cases hk : p2 = project ∧ s2 = service ∧ d2 = domain
      · obtain ⟨hp, hs, hd⟩ := hk
        subst hp
        subst hs
        subst hd
        exact ⟨n + 1, hv', .inl hact'⟩
      · obtain ⟨hvo, hdo⟩ := hother p2 s2 d2 hk
        obtain ⟨m, hvm, hdisj2⟩ := ih p2 s2 d2
        refine ⟨m, by rw [hvo]; exact hvm, ?_⟩
        rcases hdisj2 with h | h
        · exact .inl (all_status_of_deleted_map_eq true _ _ hdo h)
        · exact .inr (all_status_of_deleted_map_eq false _ _ hdo h)
    | soft_delete project service domain =>
      intro p2 s2 d2
      obtain ⟨m, hvm, hdisj⟩ := ih p2 s2 d2
      refine ⟨m, ?_, ?_⟩
      · rw [soft_delete_keyRows_version]
        exact hvm
      · by_cases hk : p2 = project ∧ s2 = service ∧ d2 = domain
        · obtain ⟨hp, hs, hd⟩ := hk
          subst hp
          subst hs
          subst hd
          exact .inr (soft_delete_keyRows_deleted_of_same st p2 s2 d2)
        · rw [soft_delete_keyRows_other st project service domain p2 s2 d2 hk]
          exact hdisj
    | reindex document_id v =>
      intro p2 s2 d2
      obtain ⟨m, hvm, hdisj⟩ := ih p2 s2 d2
      refine ⟨m, ?_, ?_⟩
      · show ((update_embedding st.rows document_id v st.clock).filter
            (docMatchesKey p2 s2 d2)).map (fun r => r.version) = _
        rw [update_embedding_filter_version]
        exact hvm
      · have hdm : ((update_embedding st.rows document_id v st.clock).filter
            (docMatchesKey p2 s2 d2)).map (fun r => r.deleted_at)
            = (keyRows st p2 s2 d2).map (fun r => r.deleted_at) :=
          update_embedding_filter_deleted _ _ _ _ _ _ _
        rcases hdisj with h | h
        · exact .inl (all_status_of_deleted_map_eq true _ _ hdm h)
        · exact .inr (all_status_of_deleted_map_eq false _ _ hdm h)

/-- C2: in every reachable state, each logical key's stored versions
(soft-deleted rows included) form the dense gap-free sequence 1..N; and any
write to that key that commits carries a version strictly greater than every
version ever stored for the key — a version, once assigned, is never reused
and never decremented, because after a full soft delete the recomputed
version 1 is rejected by the (logical key, version) unique constraint. -/
theorem document_version_density_monotone (st : DocStore)
    (h : DocReachable st) :
    (∀ project service domain, ∃ N,
        (keyRows st project service domain).map (fun r => r.version)
          = List.range' 1 N)
    ∧ (∀ project service domain summary props pols emb doc st',
        create_or_update_document st project service domain summary props
            pols emb = .ok (doc, st') →
          (∀ r ∈ keyRows st project service domain, r.version < doc.version)
          ∧ (keyRows st' project service domain).map (fun r => r.version)
              = (keyRows st project service domain).map (fun r => r.version)
                ++ [doc.version]) := by
  have hinv := docInv_of_reachable st h
  constructor
  · intro project service domain
    obtain ⟨n, hv, _⟩ := hinv project service domain
    exact ⟨n, hv⟩
  · intro project service domain summary props pols emb doc st' hok
    obtain ⟨n, hv, hdisj⟩ := hinv project service domain
    have hactive : ∀ r ∈ keyRows st project service domain,
        docActive r = true := by
      rcases hdisj with h' | h'
      · exact h'
      · cases n with
        | zero =>
          have hnil : keyRows st project service domain = [] :=
            List.length_eq_zero.mp
              (keyRows_length_of_dense st project service domain 0 hv)
          rw [hnil]
          intro r hr
          exact absurd hr (List.not_mem_nil r)
        | succ m =>
          have hconf := create_or_update_document_conflict st project service
            domain summary props pols emb (m + 1) (Nat.succ_pos m) hv h'
          rw [hok] at hconf
          exact absurd hconf (by simp)
    obtain ⟨doc0, st0, hok0, hver0, _, hv', _, _, _, _⟩ :=
      create_or_update_document_ok st project service domain summary props
        pols emb n hv hactive
    rw [hok] at hok0
    simp only [Except.ok.injEq, Prod.mk.injEq] at hok0
    obtain ⟨hdoc0, hst0⟩ := hok0
    subst hdoc0
    subst hst0
    constructor
    · intro r hr
      have hmem : r.version ∈ List.range' 1 n := by
        rw [← hv]
        exact List.mem_map_of_mem _ hr
      have := (List.mem_range'_1.mp hmem).2
      rw [hver0]
      omega
    · rw [hv', hv, hver0, List.range'_concat]
      simp [Nat.add_comm]

/-- One write into the empty store, as a concrete reachable state (for the
C2 witness). -/
def docRowW2 : DocRow :=
  { identifier := 0, project := "P", service := "S", domain := "D",
    summary := "s", version := 1, created_at := 0, updated_at := 0,
    deleted_at := none, embedding := none, properties := [], policies := [],
    source_relationships := [] }

def docStoreW2 : DocStore := { rows := [docRowW2], nextId := 1, clock := 1 }

/-- C2 witness: the invariant and write-monotonicity at the concrete
reachable state holding version 1 of one key. -/
theorem document_version_density_monotone_witness :
    (∀ project service domain, ∃ N,
        (keyRows docStoreW2 project service domain).map (fun r => r.version)
          = List.range' 1 N)
    ∧ (∀ project service domain summary props pols emb doc st',
        create_or_update_document docStoreW2 project service domain summary
            props pols emb = .ok (doc, st') →
          (∀ r ∈ keyRows docStoreW2 project service domain,
            r.version < doc.version)
          ∧ (keyRows st' project service domain).map (fun r => r.version)
              = (keyRows docStoreW2 project service domain).map
                  (fun r => r.version) ++ [doc.version]) :=
  document_version_density_monotone docStoreW2
    (DocReachable.step DocReachable.init
      (DocStep.create ⟨[], 0, 0⟩ "P" "S" "D" "s" [] [] none
        (docToDomain [docRowW2] docRowW2) docStoreW2 rfl))

/-! ## C5: threshold and exclusion of deleted / unembedded rows -/

/-- Every pair the domain-family vector search returns scores strictly above
the threshold and is backed by a stored row that is non-deleted and carries
a vector, with the identifier the result reports. -/
theorem document_semantic_search_sound (sim : List ℚ → List ℚ → ℚ)
    (st : DocStore) (query_embedding : List ℚ) (top_k : Nat)
    (similarity_threshold : ℚ) :
    ∀ ds ∈ document_semantic_search sim st query_embedding top_k
        similarity_threshold,
      similarity_threshold < ds.2
      ∧ ∃ row ∈ st.rows, row.identifier = ds.1.identifier
          ∧ row.deleted_at = none ∧ row.embedding.isSome = true
          ∧ ds.2 = rowSim sim query_embedding row.embedding := by
  intro ds hds
  unfold document_semantic_search at hds
  simp only at hds
  rw [List.mem_filterMap] at hds
  obtain ⟨r, hr, hfr⟩ := hds
  have hrh : r ∈ st.rows.filter (fun r =>
      docActive r && r.embedding.isSome &&
        decide (similarity_threshold < rowSim sim query_embedding
          r.embedding)) :=
    (mem_sortDescBy _ _ r).mp (List.take_subset _ _ hr)
  rw [List.mem_filter] at hrh
  obtain ⟨hrmem, hpred⟩ := hrh
  simp only [Bool.and_eq_true, decide_eq_true_eq] at hpred
  obtain ⟨⟨hact, hemb⟩, hsim⟩ := hpred
  cases hfind : st.rows.find? (fun t => t.identifier == r.identifier) with
  | none =>
    rw [hfind] at hfr
    exact absurd hfr (by simp)
  | some t =>
    rw [hfind] at hfr
    simp only [Option.some.injEq] at hfr
    subst hfr
    have hid : t.identifier = r.identifier := by
      have := List.find?_some hfind
      simpa using this
    refine ⟨hsim, r, hrmem, ?_, ?_, hemb, rfl⟩
    · show r.identifier = t.identifier
      exact hid.symm
    · unfold docActive at hact
      exact Option.isNone_iff_eq_none.mp hact

/-- Convention-family analog of `document_semantic_search_sound`. -/
theorem convention_semantic_search_sound (sim : List ℚ → List ℚ → ℚ)
    (st : ConvStore) (query_embedding : List ℚ) (top_k : Nat)
    (similarity_threshold : ℚ) :
    ∀ cs ∈ convention_semantic_search sim st query_embedding top_k
        similarity_threshold,
      similarity_threshold < cs.2
      ∧ ∃ row ∈ st.rows, row.identifier = cs.1.identifier
          ∧ row.deleted_at = none ∧ row.embedding.isSome = true
          ∧ cs.2 = rowSim sim query_embedding row.embedding := by
  intro cs hcs
  unfold convention_semantic_search at hcs
  simp only at hcs
  rw [List.mem_filterMap] at hcs
  obtain ⟨r, hr, hfr⟩ := hcs
  have hrh : r ∈ st.rows.filter (fun r =>
      convActive r && r.embedding.isSome &&
        decide (similarity_threshold < rowSim sim query_embedding
          r.embedding)) :=
    (mem_sortDescBy _ _ r).mp (List.take_subset _ _ hr)
  rw [List.mem_filter] at hrh
  obtain ⟨hrmem, hpred⟩ := hrh
  simp only [Bool.and_eq_true, decide_eq_true_eq] at hpred
  obtain ⟨⟨hact, hemb⟩, hsim⟩ := hpred
  cases hfind : st.rows.find? (fun t => t.identifier == r.identifier) with
  | none =>
    rw [hfind] at hfr
    exact absurd hfr (by simp)
  | some t =>
    rw [hfind] at hfr
    simp only [Option.some.injEq] at hfr
    subst hfr
    have hid : t.identifier = r.identifier := by
      have := List.find?_some hfind
      simpa using this
    refine ⟨hsim, r, hrmem, ?_, ?_, hemb, rfl⟩
    · show r.identifier = t.identifier
      exact hid.symm
    · unfold convActive at hact
      exact Option.isNone_iff_eq_none.mp hact

/-- C5: every match a successful search returns has similarity strictly
greater than the caller's threshold, and is backed — in the store of the
family its tag names — by a row that is not soft-deleted and has a stored
embedding vector; soft-deleted or unembedded rows are never returned. -/
theorem search_threshold_and_exclusion (encode : String → List ℚ)
    (sim : List ℚ → List ℚ → ℚ) (dst : DocStore) (cst : ConvStore)
    (query : String) (top_k : Nat) (similarity_threshold : ℚ)
    (r : SearchResult)
    (h : search encode sim dst cst query top_k similarity_threshold = .ok r) :
    ∀ m ∈ r.«matches», similarity_threshold < m.similarity
      ∧ ((m.document_type = "DOMAIN_DOCUMENT"
            ∧ ∃ row ∈ dst.rows, row.identifier = m.document_id
              ∧ row.deleted_at = none ∧ row.embedding.isSome = true)
        ∨ (m.document_type = "PROJECT_CONVENTION"
            ∧ ∃ row ∈ cst.rows, row.identifier = m.document_id
              ∧ row.deleted_at = none ∧ row.embedding.isSome = true)) := by
  intro m hm
  unfold search at h
  cases hg : generate_embedding encode query with
  | error e =>
    rw [hg] at h
    exact absurd h (by simp)
  | ok qe =>
    rw [hg] at h
    simp only [Except.ok.injEq] at h
    subst h
    have hm' : m ∈ merged_matches sim dst cst qe top_k similarity_threshold :=
      (mem_sortDescBy _ _ m).mp (List.take_subset _ _ hm)
    unfold merged_matches at hm'
    rw [List.mem_append] at hm'
    rcases hm' with hm' | hm'
    · rw [List.mem_map] at hm'
      obtain ⟨ds, hds, hmap⟩ := hm'
      obtain ⟨hτ, row, hrow, hidr, hdel, hemb, _⟩ :=
        document_semantic_search_sound sim dst qe top_k similarity_threshold
          ds hds
      subst hmap
      exact ⟨hτ, .inl ⟨rfl, row, hrow, hidr, hdel, hemb⟩⟩
    · rw [List.mem_map] at hm'
      obtain ⟨cs, hcs, hmap⟩ := hm'
      obtain ⟨hτ, row, hrow, hidr, hdel, hemb, _⟩ :=
        convention_semantic_search_sound sim cst qe top_k similarity_threshold
          cs hcs
      subst hmap
      exact ⟨hτ, .inr ⟨rfl, row, hrow, hidr, hdel, hemb⟩⟩

/-- A stored, embedded, non-deleted domain row (for the C5 and C6
witnesses). -/
def docRowC5 : DocRow :=
  { identifier := 0, project := "P", service := "S", domain := "D",
    summary := "s", version := 1, created_at := 0, updated_at := 0,
    deleted_at := none, embedding := some [1], properties := [],
    policies := [], source_relationships := [] }

def docStoreC5 : DocStore := { rows := [docRowC5], nextId := 1, clock := 1 }

def matchC5 : DocumentMatch :=
  { document_type := "DOMAIN_DOCUMENT", document_id := 0, similarity := 1,
    content := .document
      { identifier := 0, project := "P", service := "S", domain := "D",
        summary := "s", version := 1, properties := [], policies := [],
        dependencies := [], created_at := 0, updated_at := 0 } }

/-- C5 witness: a concrete search (constant similarity 1, threshold 0) over
a one-row store returns that row's match, above the threshold and backed by
the stored non-deleted embedded row. -/
theorem search_threshold_and_exclusion_witness :
    (0 : ℚ) < matchC5.similarity
    ∧ ((matchC5.document_type = "DOMAIN_DOCUMENT"
          ∧ ∃ row ∈ docStoreC5.rows, row.identifier = matchC5.document_id
            ∧ row.deleted_at = none ∧ row.embedding.isSome = true)
      ∨ (matchC5.document_type = "PROJECT_CONVENTION"
          ∧ ∃ row ∈ (⟨[], 0, 0⟩ : ConvStore).rows,
            row.identifier = matchC5.document_id
            ∧ row.deleted_at = none ∧ row.embedding.isSome = true)) :=
  search_threshold_and_exclusion (fun _ => [1]) (fun _ _ => 1) docStoreC5
    ⟨[], 0, 0⟩ "q" 5 0
    { query := "q", «matches» := [matchC5], total_count := 1 } rfl matchC5
    (List.mem_singleton.mpr rfl)

/-! ## C6: stable global sort of the merged match list -/

/-- C6: a successful search's matches are exactly the merged per-family
list, stable-sorted by similarity descending, then truncated to `top_k`;
the sorted list is a permutation of the merged list, is sorted by
similarity descending, and for every similarity value the matches carrying
that value appear in their merged-list (per-family) order — equal scores
keep their original relative order. -/
theorem search_merge_sort_stable (encode : String → List ℚ)
    (sim : List ℚ → List ℚ → ℚ) (dst : DocStore) (cst : ConvStore)
    (query : String) (top_k : Nat) (similarity_threshold : ℚ)
    (qe : List ℚ) (r : SearchResult)
    (hq : generate_embedding encode query = .ok qe)
    (h : search encode sim dst cst query top_k similarity_threshold = .ok r) :
    r.«matches» = (sortDescBy (fun m => m.similarity)
        (merged_matches sim dst cst qe top_k similarity_threshold)).take top_k
    ∧ (sortDescBy (fun m => m.similarity)
        (merged_matches sim dst cst qe top_k similarity_threshold)).Sorted
        (fun a b => b.similarity ≤ a.similarity)
    ∧ (sortDescBy (fun m => m.similarity)
        (merged_matches sim dst cst qe top_k similarity_threshold)).Perm
        (merged_matches sim dst cst qe top_k similarity_threshold)
    ∧ ∀ s : ℚ, (sortDescBy (fun m => m.similarity)
          (merged_matches sim dst cst qe top_k similarity_threshold)).filter
          (fun m => m.similarity = s)
        = (merged_matches sim dst cst qe top_k similarity_threshold).filter
          (fun m => m.similarity = s) := by
  unfold search at h
  rw [hq] at h
  simp only [Except.ok.injEq] at h
  subst h
  exact ⟨rfl, sortDescBy_sorted _ _, sortDescBy_perm _ _,
    fun s => filter_sortDescBy _ _ s⟩

/-- A stored, embedded, non-deleted convention row scoring the same
similarity as `docRowC5` (for the C6 witness). -/
def convRowC6 : ConvRow :=
  { identifier := 1, project := "P", category := "C", title := "T",
    version := 1, content := "c", example_correct := none,
    example_incorrect := none, created_at := 0, updated_at := 0,
    deleted_at := none, embedding := some [1] }

def convStoreC6 : ConvStore := { rows := [convRowC6], nextId := 2, clock := 1 }

def matchC6c : DocumentMatch :=
  { document_type := "PROJECT_CONVENTION", document_id := 1, similarity := 1,
    content := .convention
      { identifier := 1, project := "P", category := "C", title := "T",
        version := 1, content := "c", example_correct := none,
        example_incorrect := none, created_at := 0, updated_at := 0 } }

/-- C6 witness: a search whose two matches (one per family) tie at
similarity 1 keeps the merged per-family order after the stable sort. -/
theorem search_merge_sort_stable_witness :
    ({ query := "q", «matches» := [matchC5, matchC6c], total_count := 2 } :
        SearchResult).«matches»
      = (sortDescBy (fun m => m.similarity)
          (merged_matches (fun _ _ => 1) docStoreC5 convStoreC6 [1] 5
            0)).take 5
    ∧ (sortDescBy (fun m => m.similarity)
        (merged_matches (fun _ _ => 1) docStoreC5 convStoreC6 [1] 5
          0)).Sorted (fun a b => b.similarity ≤ a.similarity)
    ∧ (sortDescBy (fun m => m.similarity)
        (merged_matches (fun _ _ => 1) docStoreC5 convStoreC6 [1] 5
          0)).Perm
        (merged_matches (fun _ _ => 1) docStoreC5 convStoreC6 [1] 5 0)
    ∧ ∀ s : ℚ, (sortDescBy (fun m => m.similarity)
          (merged_matches (fun _ _ => 1) docStoreC5 convStoreC6 [1] 5
            0)).filter (fun m => m.similarity = s)
        = (merged_matches (fun _ _ => 1) docStoreC5 convStoreC6 [1] 5
            0).filter (fun m => m.similarity = s) :=
  search_merge_sort_stable (fun _ => [1]) (fun _ _ => 1) docStoreC5
    convStoreC6 "q" 5 0 [1]
    { query := "q", «matches» := [matchC5, matchC6c], total_count := 2 }
    rfl rfl

end MCP
